import Mathlib

/-!
Verification of the Finance-Sorter CSV categorization engine (`src/script.js`).

The JavaScript source is shallowly embedded: strings are Lean `String`
(a wrapper around `List Char`), JavaScript numbers are modelled as exact
rationals `ℚ`, JavaScript objects (keyword→category tables, category
groups) are association lists with unique keys, and the fallible regex
construction in `categorizeTransactions` is modelled with `Except`.
Each definition is a direct transliteration of the corresponding source
function; regular expressions are transliterated into explicit character
matchers.  JavaScript string semantics is modelled at the codepoint level
(case mapping is modelled for ASCII letters; all inputs appearing in the
theorems below are ASCII).
-/

/-! ## Character primitives (JavaScript semantics, by codepoint) -/

/-- The characters matched by JavaScript `\s` and removed by `String.trim`:
ASCII whitespace, NBSP, the Unicode space separators, line separators and
the BOM. -/
def isJsWs (c : Char) : Bool :=
  c.toNat ∈ [9, 10, 11, 12, 13, 32, 160, 0x1680, 0x2000, 0x2001, 0x2002, 0x2003,
    0x2004, 0x2005, 0x2006, 0x2007, 0x2008, 0x2009, 0x200A, 0x2028, 0x2029,
    0x202F, 0x205F, 0x3000, 0xFEFF]

/-- The characters matched by the regex class `\d`. -/
def isDigitCh (c : Char) : Bool := decide (48 ≤ c.toNat ∧ c.toNat ≤ 57)

/-- JavaScript line terminators, which `.` in a regex does not match. -/
def isLineTerm (c : Char) : Bool := c.toNat ∈ [10, 13, 0x2028, 0x2029]

/-- The characters matched by the regex word class `\w`, used by the `\b`
word-boundary assertion. -/
def isWordChar (c : Char) : Bool :=
  decide ((65 ≤ c.toNat ∧ c.toNat ≤ 90) ∨ (97 ≤ c.toNat ∧ c.toNat ≤ 122) ∨
    (48 ≤ c.toNat ∧ c.toNat ≤ 57) ∨ c.toNat = 95)

/-- The characters kept by the stricter cleaning pass, regex class `[A-Z0-9 ]`. -/
def isUpperAlnumSp (c : Char) : Bool :=
  decide ((65 ≤ c.toNat ∧ c.toNat ≤ 90) ∨ (48 ≤ c.toNat ∧ c.toNat ≤ 57) ∨ c.toNat = 32)

/-- JavaScript `String.prototype.toUpperCase`, modelled for ASCII letters. -/
def jsToUpperChar (c : Char) : Char :=
  if 97 ≤ c.toNat ∧ c.toNat ≤ 122 then Char.ofNat (c.toNat - 32) else c

/-- JavaScript `String.prototype.toLowerCase`, modelled for ASCII letters. -/
def jsToLowerChar (c : Char) : Char :=
  if 65 ≤ c.toNat ∧ c.toNat ≤ 90 then Char.ofNat (c.toNat + 32) else c

/-- Canonical codepoint used for case-insensitive (`i` flag) comparison. -/
def canonCI (c : Char) : Nat :=
  if 65 ≤ c.toNat ∧ c.toNat ≤ 90 then c.toNat + 32 else c.toNat

/-- Case-insensitive character comparison, as under the regex `i` flag. -/
def charCI (a b : Char) : Bool := decide (canonCI a = canonCI b)

/-! ## List-of-characters primitives -/

/-- JavaScript `String.prototype.trim`: drop leading and trailing whitespace. -/
def trimL (l : List Char) : List Char :=
  ((l.dropWhile isJsWs).reverse.dropWhile isJsWs).reverse

def jsTrimS (s : String) : String := ⟨trimL s.data⟩

def toUpperL (l : List Char) : List Char := l.map jsToUpperChar

def toUpperS (s : String) : String := ⟨toUpperL s.data⟩

def toLowerS (s : String) : String := ⟨s.data.map jsToLowerChar⟩

/-- The test `/^\d+$/.test s`: nonempty and composed entirely of digits. -/
def allDigitsTest (s : String) : Bool :=
  decide (s.data ≠ []) && s.data.all isDigitCh

/-- Case-insensitively match the literal `pat` at the front of `l`,
returning the remainder after the match. -/
def matchCI : List Char → List Char → Option (List Char)
  | [], l => some l
  | _ :: _, [] => none
  | p :: ps, c :: cs => if charCI p c then matchCI ps cs else none

/-- Matcher for `/PURCHASE AUTHORIZED ON \d{2}\/\d{2}/i` anchored at the
front of the list; returns the remainder after the match. -/
def tryPurch (l : List Char) : Option (List Char) :=
  match matchCI "PURCHASE AUTHORIZED ON ".data l with
  | none => none
  | some r =>
    match r with
    | a :: b :: s :: c :: d :: rest =>
      if isDigitCh a && isDigitCh b && decide (s = '/') && isDigitCh c && isDigitCh d then
        some rest
      else none
    | _ => none

/-- Matcher for `/CARD \d+/i` anchored at the front of the list (greedy in
the digits); returns the remainder after the match. -/
def tryCard (l : List Char) : Option (List Char) :=
  match matchCI "CARD ".data l with
  | none => none
  | some r =>
    if (r.takeWhile isDigitCh).length ≥ 1 then some (r.dropWhile isDigitCh) else none

/-- JavaScript `String.prototype.replace` with a non-global regex and empty
replacement: delete the leftmost match (if any), scanning left to right. -/
def replaceFirstP (t : List Char → Option (List Char)) : List Char → List Char
  | [] => match t [] with
    | some r => r
    | none => []
  | c :: rest => match t (c :: rest) with
    | some r => r
    | none => c :: replaceFirstP t rest

/-- Fuel-bounded worker for `collapseWs`; the fuel is only a structural
termination device and is always at least the list length at each call
(each step consumes at least one character). -/
def collapseWsAux : Nat → List Char → List Char
  | 0, l => l
  | _ + 1, [] => []
  | _ + 1, [c] => [c]
  | fuel + 1, c :: c2 :: rest =>
    if isJsWs c && isJsWs c2 then ' ' :: collapseWsAux fuel ((c2 :: rest).dropWhile isJsWs)
    else c :: collapseWsAux fuel (c2 :: rest)

/-- The call `.replace(/\s{2,}/g, ' ')`: every maximal run of two or more
whitespace characters becomes a single space; a lone whitespace character
is left as it is. -/
def collapseWs (l : List Char) : List Char := collapseWsAux l.length l

/-! ## FieldNormalizer (`normalizeAmount`, `normalizeDate`, `cleanDesc`) -/

/-- Strip `[,$]` and then `[()]`, the two global `.replace` calls of
`normalizeAmount`. -/
def stripMoney (l : List Char) : List Char :=
  (l.filter (fun c => !(decide (c = ',') || decide (c = '$')))).filter
    (fun c => !(decide (c = '(') || decide (c = ')')))

/-- The test `/^\(.*\)$/.test s`: the whole (trimmed) string is wrapped in
parentheses, with no line terminator in between (`.` does not match
those). -/
def parenWrapped (l : List Char) : Bool :=
  decide (2 ≤ l.length) && decide (l.head? = some '(') && decide (l.getLast? = some ')') &&
    (l.drop 1).dropLast.all (fun c => !isLineTerm c)

/-- Digits to the natural number they denote, most significant first. -/
def digitsToNat (l : List Char) : Nat := l.foldl (fun a c => 10 * a + (c.toNat - 48)) 0

/-- Parse an optional exponent part `e`/`E` with optional sign; an
incomplete exponent contributes nothing (as in `parseFloat`). -/
def parseExp (l : List Char) : Int :=
  match l with
  | c :: r =>
    if c = 'e' ∨ c = 'E' then
      match r with
      | '+' :: r2 => if (r2.takeWhile isDigitCh) = [] then 0 else
          (digitsToNat (r2.takeWhile isDigitCh) : Int)
      | '-' :: r2 => if (r2.takeWhile isDigitCh) = [] then 0 else
          -(digitsToNat (r2.takeWhile isDigitCh) : Int)
      | r2 => if (r2.takeWhile isDigitCh) = [] then 0 else
          (digitsToNat (r2.takeWhile isDigitCh) : Int)
    else 0
  | [] => 0

/-- Combine sign, integer digits, fraction digits and exponent into a
signed integer numerator and a power-of-ten denominator exponent. -/
def mkFloatVal (neg : Bool) (ip fp : List Char) (e : Int) : Int × Nat :=
  let mant : Nat := digitsToNat (ip ++ fp)
  let sign : Int := if neg then -1 else 1
  if 0 ≤ e then (sign * mant * 10 ^ e.toNat, fp.length)
  else (sign * mant, fp.length + (-e).toNat)

/-- JavaScript `parseFloat`: skip leading whitespace, optional sign, decimal digits
with optional fraction and exponent; the longest valid numeric front part
is taken and trailing garbage ignored; `none` models `NaN` (no numeric
value at the front at all).  (`Infinity` is outside the modelled fragment and also
maps to `none`; it is not reachable from any input considered below.)
The result `(i, k)` denotes the rational `i / 10 ^ k`. -/
def jsParseFloat (l0 : List Char) : Option (Int × Nat) :=
  let l1 := l0.dropWhile isJsWs
  let signStrip : Bool × List Char :=
    match l1 with
    | '-' :: r => (true, r)
    | '+' :: r => (false, r)
    | r => (false, r)
  let neg := signStrip.1
  let l2 := signStrip.2
  let ip := l2.takeWhile isDigitCh
  let r3 := l2.dropWhile isDigitCh
  if ip = [] then
    match r3 with
    | '.' :: r4 =>
      let fp := r4.takeWhile isDigitCh
      if fp = [] then none
      else some (mkFloatVal neg ip fp (parseExp (r4.dropWhile isDigitCh)))
    | _ => none
  else
    match r3 with
    | '.' :: r4 =>
      some (mkFloatVal neg ip (r4.takeWhile isDigitCh) (parseExp (r4.dropWhile isDigitCh)))
    | _ => some (mkFloatVal neg ip [] (parseExp r3))

/-- The function `normalizeAmount` (script.js lines 3–11).  `none` models a
`null`/absent cell. -/
def normalizeAmount (raw : Option String) : ℚ :=
  match raw with
  | none => 0
  | some str =>
    let s := trimL str.data
    let parenNeg := parenWrapped s
    let s2 := stripMoney s
    match jsParseFloat (if s2 = [] then ['0'] else s2) with
    | none => 0
    | some ik =>
      let n : ℚ := (ik.1 : ℚ) / 10 ^ ik.2
      if parenNeg then -|n| else n

/-- Parser for `/^(\d{1,2})\/(\d{1,2})\/(\d{4})$/`, returning the three
capture groups.  The digit runs are taken greedily; since the separator
`/` is not a digit this is exactly the backtracking regex semantics. -/
def mdyParse (l : List Char) : Option (List Char × List Char × List Char) :=
  let m := l.takeWhile isDigitCh
  let r1 := l.dropWhile isDigitCh
  let d := r1.tail.takeWhile isDigitCh
  let r3 := r1.tail.dropWhile isDigitCh
  let y := r3.tail.takeWhile isDigitCh
  let r5 := r3.tail.dropWhile isDigitCh
  if 1 ≤ m.length ∧ m.length ≤ 2 ∧ r1.head? = some '/' ∧
      1 ≤ d.length ∧ d.length ≤ 2 ∧ r3.head? = some '/' ∧
      y.length = 4 ∧ r5 = [] then
    some (m, d, y)
  else none

/-- The test `/^\d{1,2}\/\d{1,2}\/\d{4}$/.test s`. -/
def mdyTest (l : List Char) : Bool := (mdyParse l).isSome

/-- The test `/^\d{4}-\d{2}-\d{2}$/.test s`. -/
def isoTest (l : List Char) : Bool :=
  let y := l.takeWhile isDigitCh
  let r1 := l.dropWhile isDigitCh
  let mo := r1.tail.takeWhile isDigitCh
  let r3 := r1.tail.dropWhile isDigitCh
  let d := r3.tail.takeWhile isDigitCh
  let r5 := r3.tail.dropWhile isDigitCh
  decide (y.length = 4) && decide (r1.head? = some '-') && decide (mo.length = 2) &&
    decide (r3.head? = some '-') && decide (d.length = 2) && decide (r5 = [])

/-- JavaScript `String.prototype.padStart 2 '0'`. -/
def pad2 (l : List Char) : List Char := List.replicate (2 - l.length) '0' ++ l

/-- The function `normalizeDate` (script.js lines 13–25). -/
def normalizeDate (raw : String) : String :=
  if raw = "" then ""
  else
    let s := trimL raw.data
    if isoTest s then ⟨s⟩
    else
      match mdyParse s with
      | some mdy => ⟨mdy.2.2 ++ '-' :: pad2 mdy.1 ++ '-' :: pad2 mdy.2.1⟩
      | none => ⟨s⟩

/-- The boilerplate-removal and whitespace pipeline shared by `cleanDesc`
and the categorizer's stricter pass: first occurrence of the
authorized-purchase pattern removed, then first occurrence of the
card-number pattern, then whitespace runs collapsed. -/
def descPipe (l : List Char) : List Char :=
  collapseWs (replaceFirstP tryCard (replaceFirstP tryPurch l))

/-- The function `cleanDesc` (script.js lines 27–34): remove boilerplate, collapse
whitespace runs, trim, uppercase. -/
def cleanDesc (s : String) : String := ⟨toUpperL (trimL (descPipe s.data))⟩

/-- The stricter description-cleaning pass of `categorizeTransactions`
(script.js lines 188–194): remove boilerplate, collapse whitespace runs,
uppercase, strip every character outside `A–Z`/`0–9`/space, trim. -/
def strictClean (s : String) : String :=
  ⟨trimL (List.filter isUpperAlnumSp (toUpperL (descPipe s.data)))⟩

/-! ## ProfileDetector (`detectProfile`) -/

/-- Cell access in `detectProfile`: missing cell is the empty string; all
quote characters are removed and the result trimmed. -/
def cellAt (row : List String) (i : Nat) : String :=
  ⟨trimL ((row.getD i "").data.filter (fun c => decide (c ≠ '"')))⟩

inductive Profile where
  | yourBank5
  | usBankHeaders
  | usBankBody
  | unknown
deriving DecidableEq

/-- The function `detectProfile` (script.js lines 40–70). -/
def detectProfile (row : List String) : Profile :=
  if row.length < 3 then .unknown
  else
    let c0 := cellAt row 0
    let c1 := cellAt row 1
    let c2 := cellAt row 2
    let c3 := cellAt row 3
    let c4 := cellAt row 4
    if toLowerS c0 = "date" ∧ toLowerS c1 = "transaction" ∧ toLowerS c2 = "name" ∧
        toLowerS c3 = "memo" ∧ toLowerS c4 = "amount" then .usBankHeaders
    else if mdyTest c0.data ∧ c2 = "*" then .yourBank5
    else if isoTest c0.data ∧ 5 ≤ row.length then .usBankBody
    else .unknown

-- sanity checks (testable properties from the spec, section 8)
example : detectProfile ["Date", "Transaction", "Name", "Memo", "Amount"] = .usBankHeaders := by
  decide
example : detectProfile ["3/4/2024", "-12.00", "*", "", "COFFEE SHOP"] = .yourBank5 := by decide
example : detectProfile ["2024-03-04", "DEBIT", "ACME", "RENT", "-900.00"] = .usBankBody := by
  decide
example : normalizeDate "3/4/2024" = "2024-03-04" := by decide
example : normalizeDate "2024-03-04" = "2024-03-04" := by decide
example : normalizeDate "N/A" = "N/A" := by decide

/-! ## Data model: transactions, the keyword store, category groups -/

deriving instance DecidableEq for Except

/-- A canonical transaction record. -/
structure Txn where
  Date : String
  Amount : ℚ
  Description : String
deriving DecidableEq

/-- The merged keyword→category table (`{...CATEGORIES, ...custom}`), a
JavaScript object modelled as an association list; object keys are
unique, which theorems assume as `Nodup` where needed. -/
abbrev Store := List (String × String)

/-- The category groups object (`categorized`): category name → ordered
transaction list. -/
abbrev Groups := List (String × List Txn)

/-- Object property read `store[k]`: value at the (first) entry with key `k`. -/
def lookupStore (k : String) (store : Store) : Option String :=
  (store.find? (fun p => decide (p.1 = k))).map Prod.snd

/-- The statement `if (!categorized[category]) categorized[category] = [];
categorized[category].push(t)`: append `t` to the group named `target`,
creating the group (at the end, in insertion order) if absent. -/
def push1 (gs : Groups) (target : String) (t : Txn) : Groups :=
  if gs.any (fun g => decide (g.1 = target)) then
    gs.map (fun g => if g.1 = target then (g.1, g.2 ++ [t]) else g)
  else gs ++ [(target, [t])]

/-! ## Categorizer (`categorizeTransactions`, script.js lines 177–221) -/

/-- A keyword is free of regex metacharacters, so that interpolating it
into `new RegExp("\\b" + kw + "\\b", "i")` yields the literal whole-word
pattern. -/
def regexLiteralSafe (kw : String) : Bool :=
  kw.data.all (fun c =>
    !(c.toNat ∈ [92, 94, 36, 46, 42, 43, 63, 40, 41, 91, 93, 123, 125, 124]))

/-- Word/non-word status of position `i` of `l` (positions outside the
string count as non-word), as used by the `\b` assertion. -/
def wordAt (l : List Char) (i : Nat) : Bool :=
  match l.get? i with
  | some c => isWordChar c
  | none => false

/-- Word/non-word status of the character before position `i`. -/
def prevIsWord (l : List Char) : Nat → Bool
  | 0 => false
  | i + 1 => wordAt l i

/-- The `\b` assertion holds at position `i` of `l`. -/
def boundaryAt (l : List Char) (i : Nat) : Bool := prevIsWord l i != wordAt l i

/-- The test `new RegExp("\\b" + kw + "\\b", "i").test s` for a metacharacter-free
keyword `kw`: a case-insensitive occurrence of `kw` in `s` flanked by word
boundaries. -/
def wbMatch (kw : String) (s : String) : Bool :=
  (List.range (s.data.length + 1)).any (fun i =>
    boundaryAt s.data i && (matchCI kw.data (s.data.drop i)).isSome &&
      boundaryAt s.data (i + kw.data.length))

/-- The categorizer's keyword test as the spec words it: the keyword is
uppercased and tested against the cleaned description under the
case-insensitive whole-word-boundary match. -/
def wbTest (kw desc : String) : Bool := wbMatch (toUpperS kw) desc

/-- Sort order of `sortedKeywords`: descending character length
(comparator `(a, b) => b.length - a.length`).  The order among keywords
of equal length is unspecified by the source (spec section 9) and no
theorem below depends on it. -/
def lenGe (a b : String) : Prop := b.length ≤ a.length

instance : DecidableRel lenGe := fun _ _ => Nat.decLe _ _

instance : IsTotal String lenGe := ⟨fun a b => Nat.le_total b.length a.length⟩

instance : IsTrans String lenGe := ⟨fun _ _ _ h1 h2 => Nat.le_trans h2 h1⟩

/-- The expression `Object.keys(allCats).sort((a, b) => b.length - a.length)`. -/
def sortKeys (store : Store) : List String :=
  List.insertionSort lenGe (store.map Prod.fst)

/-- The keyword loop of `categorizeTransactions` (lines 202–209): for each
keyword in order, build `new RegExp("\\b" + keywordUpper + "\\b", "i")` —
which throws for a keyword outside the literal fragment (e.g. with an
unbalanced parenthesis), modelled as `Except.error` — and return the
category of the first keyword whose pattern matches; `"Uncategorized"`
when none matches.  (`allCats[keyword]` is always defined since the
keyword came from `Object.keys`; the `getD` default is unreachable.) -/
def findCategory (store : Store) (desc : String) : List String → Except Unit String
  | [] => .ok "Uncategorized"
  | k :: rest =>
    if regexLiteralSafe (toUpperS k) then
      if wbMatch (toUpperS k) desc then .ok ((lookupStore k store).getD "undefined")
      else findCategory store desc rest
    else .error ()

/-- Category assignment for one row (lines 196–210): positive amounts are
`"Income"` unconditionally; otherwise the keyword loop runs on the
cleaned description. -/
def assignCategory (store : Store) (amount : ℚ) (desc : String) : Except Unit String :=
  if 0 < amount then .ok "Income" else findCategory store desc (sortKeys store)

/-- One iteration of the `data.forEach` body: clean the description with
the stricter pass, assign a category, and rebuild the stored record. -/
def categorizeRow (store : Store) (t : Txn) : Except Unit (String × Txn) :=
  (assignCategory store t.Amount (strictClean t.Description)).map
    (fun c => (c, ⟨t.Date, t.Amount, strictClean t.Description⟩))

/-- The function `categorizeTransactions` (lines 177–221): group the rows by assigned
category, in pass order; an invalid keyword pattern aborts the whole
grouping (the JavaScript exception propagates out of `forEach`). -/
def categorizeTransactions (store : Store) (rows : List Txn) : Except Unit Groups :=
  rows.foldlM (fun gs row => (categorizeRow store row).map (fun ct => push1 gs ct.1 ct.2)) []

/-! ## ReassignmentEngine (`assignBtn.onclick`, script.js lines 316–332) -/

/-- A transaction matches the selection when some selected transaction has
the same `(Date, Description)` pair. -/
def txnMatchesSel (sel : List Txn) (t : Txn) : Bool :=
  sel.any (fun s => decide (s.Description = t.Description) && decide (s.Date = t.Date))

/-- The move phase: push every selected transaction onto the target group. -/
def pushAll (gs : Groups) (target : String) (sel : List Txn) : Groups :=
  sel.foldl (fun g t => push1 g target t) gs

/-- The removal phase: from every group other than the target, remove the
transactions whose `(Date, Description)` pair matches a selected one. -/
def removeFromOthers (gs : Groups) (target : String) (sel : List Txn) : Groups :=
  gs.map (fun g =>
    if g.1 = target then g else (g.1, g.2.filter (fun t => !txnMatchesSel sel t)))

/-- The full reassignment (lines 316–332): move phase, then removal phase. -/
def reassign (gs : Groups) (sel : List Txn) (target : String) : Groups :=
  removeFromOthers (pushAll gs target sel) target sel

/-! ## KeywordLearner commit (`assignBtn.onclick`, script.js lines 266–335) -/

/-- JavaScript `String.prototype.split ','`. -/
def splitComma : List Char → List (List Char)
  | [] => [[]]
  | c :: rest =>
    if c = ',' then [] :: splitComma rest
    else
      match splitComma rest with
      | h :: t => (c :: h) :: t
      | [] => [[c]]

/-- The commit-step keyword parse (lines 303–306): split on commas, trim
and uppercase each entry, keep entries of length ≥ 3 not composed
entirely of digits. -/
def parseKeywords (raw : String) : List String :=
  (((splitComma raw.data).map (fun e => toUpperS ⟨trimL e⟩)).filter
    (fun k => decide (3 ≤ k.length) && !allDigitsTest k))

/-- Object property write `store[k] = v`: overwrite the entry if the key
exists, otherwise append it. -/
def storeInsert (store : Store) (k v : String) : Store :=
  if store.any (fun p => decide (p.1 = k)) then
    store.map (fun p => if p.1 = k then (p.1, v) else p)
  else store ++ [(k, v)]

inductive AssignError where
  | noSelection
  | emptyCategoryName
  | noKeyword
deriving DecidableEq

/-- The assign-selected action (lines 266–335), from the state it reads
and the user inputs it collects: the selection, the dropdown value, the
new-category name field, and the string the keyword prompt returned
(`""` models a cancelled/empty prompt, which the code rejects).  The
suggestion tally (lines 280–295) only computes the prompt's default text
and touches no state, so it is omitted.  On success the new custom table
and the reassigned groups are returned; each `alert`-and-return path is
an `Except.error`. -/
def assignSelected (custom : Store) (gs : Groups) (sel : List Txn)
    (dropdownValue newNameInput rawInput : String) : Except AssignError (Store × Groups) :=
  if sel = [] then .error .noSelection
  else if dropdownValue = "New Category..." ∧ jsTrimS newNameInput = "" then
    .error .emptyCategoryName
  else
    let chosen :=
      if dropdownValue = "New Category..." then jsTrimS newNameInput else dropdownValue
    if rawInput = "" then .error .noKeyword
    else
      let custom2 := (parseKeywords rawInput).foldl (fun c k => storeInsert c k chosen) custom
      .ok (custom2, reassign gs sel chosen)

-- sanity checks
example : parseKeywords " acme coffee ,12345,ab" = ["ACME COFFEE"] := by decide
example :
    categorizeTransactions [("COFFEE", "Food")] [⟨"2024-01-01", -3, "Acme Coffee Shop"⟩] =
      .ok [("Food", [⟨"2024-01-01", -3, "ACME COFFEE SHOP"⟩])] := by decide
example :
    categorizeTransactions [] [⟨"2024-01-01", 1500, "PAYROLL DEPOSIT"⟩] =
      .ok [("Income", [⟨"2024-01-01", 1500, "PAYROLL DEPOSIT"⟩])] := by decide
example : cleanDesc "PURCHASE AUTHORIZED ON 01/02 ACME  COFFEE CARD 1234" = "ACME COFFEE" := by
  decide

/-! ## Spec-side definitions

These follow the wording of the specification/claims rather than the
source, and are compared with the source embeddings in the theorems
below. -/

/-- Spec wording: the string has the shape `M/D/YYYY` or `MM/DD/YYYY` —
one or two month digits, one or two day digits, four year digits. -/
def MDYShape (l : List Char) : Prop :=
  ∃ m d y : List Char,
    l = m ++ '/' :: (d ++ '/' :: y) ∧
    1 ≤ m.length ∧ m.length ≤ 2 ∧ (∀ c ∈ m, isDigitCh c = true) ∧
    1 ≤ d.length ∧ d.length ≤ 2 ∧ (∀ c ∈ d, isDigitCh c = true) ∧
    y.length = 4 ∧ (∀ c ∈ y, isDigitCh c = true)

/-- Spec wording: the string has the shape `YYYY-MM-DD`. -/
def ISOShape (l : List Char) : Prop :=
  ∃ y mo d : List Char,
    l = y ++ '-' :: (mo ++ '-' :: d) ∧
    y.length = 4 ∧ (∀ c ∈ y, isDigitCh c = true) ∧
    mo.length = 2 ∧ (∀ c ∈ mo, isDigitCh c = true) ∧
    d.length = 2 ∧ (∀ c ∈ d, isDigitCh c = true)

/-- The least index of `l` at which the matcher `t` matches, together
with the remainder after that match. -/
def findMatchIdx (t : List Char → Option (List Char)) : List Char → Option (Nat × List Char)
  | [] => (t []).map (fun r => (0, r))
  | c :: rest =>
    match t (c :: rest) with
    | some r => some (0, r)
    | none => (findMatchIdx t rest).map (fun ir => (ir.1 + 1, ir.2))

/-- Spec wording of a first-occurrence removal: splice out the match at
the least index where the pattern matches; identity when it never
matches. -/
def removeFirstOcc (t : List Char → Option (List Char)) (l : List Char) : List Char :=
  match findMatchIdx t l with
  | some ir => l.take ir.1 ++ ir.2
  | none => l

/-- Fuel-bounded worker for `replaceAllP` (fuel is a structural
termination device; every pattern used here consumes at least one
character per match, so fuel `l.length` suffices). -/
def replaceAllAux (t : List Char → Option (List Char)) : Nat → List Char → List Char
  | 0, l => l
  | _ + 1, [] => []
  | fuel + 1, c :: rest =>
    match t (c :: rest) with
    | some r => replaceAllAux t fuel r
    | none => c :: replaceAllAux t fuel rest

/-- A global (`g`-flag) `.replace` with empty replacement: scan left to
right, deleting every match and continuing after it.  This is the
claim-side reading "removes all occurrences" of C9. -/
def replaceAllP (t : List Char → Option (List Char)) (l : List Char) : List Char :=
  replaceAllAux t l.length l

/-- The function `cleanDesc` as claim C9 words it, with the boilerplate removals
applied to all occurrences instead of the first one. -/
def cleanDescAllOcc (s : String) : String :=
  ⟨toUpperL (trimL (collapseWs (replaceAllP tryCard (replaceAllP tryPurch s.data))))⟩

/-- The matcher `t` matches somewhere in `l` (at any start position). -/
def hasOccur (t : List Char → Option (List Char)) : List Char → Bool
  | [] => (t []).isSome
  | c :: rest => (t (c :: rest)).isSome || hasOccur t rest

/-- Two adjacent whitespace characters occur somewhere in `l`. -/
def hasWsRun : List Char → Bool
  | [] => false
  | [_] => false
  | c :: c2 :: rest => (isJsWs c && isJsWs c2) || hasWsRun (c2 :: rest)

/-- The transaction has the given `(Date, Description)` identity pair. -/
def hasPair (d desc : String) (t : Txn) : Bool :=
  decide (t.Date = d) && decide (t.Description = desc)

/-- Some transaction of the group carries the `(Date, Description)` pair. -/
def groupHasPair (d desc : String) (g : String × List Txn) : Bool :=
  g.2.any (hasPair d desc)

/-- The number of groups containing a transaction with the given
`(Date, Description)` pair: the spec's own transaction identity
(section 9). -/
def pairGroupCount (d desc : String) (gs : Groups) : Nat :=
  List.countP (groupHasPair d desc) gs

/-- The number of groups containing the record `t` itself (full record
equality, including the amount). -/
def txnGroupCount (t : Txn) (gs : Groups) : Nat :=
  List.countP (fun g => decide (t ∈ g.2)) gs

/-! ## Bridge lemmas: digit-run parsers versus declarative shapes -/

theorem takeWhile_append_eq (p : Char → Bool) (m : List Char) (c : Char) (r : List Char)
    (hm : ∀ x ∈ m, p x = true) (hc : p c = false) :
    (m ++ c :: r).takeWhile p = m ∧ (m ++ c :: r).dropWhile p = c :: r := by
  induction m with
  | nil => simp [List.takeWhile_cons, List.dropWhile_cons, hc]
  | cons a t ih =>
    have ha : p a = true := hm a (by simp)
    have iht := ih (fun x hx => hm x (by simp [hx]))
    simp [List.takeWhile_cons, List.dropWhile_cons, ha, iht.1, iht.2]

theorem takeWhile_all_eq (p : Char → Bool) (m : List Char) (hm : ∀ x ∈ m, p x = true) :
    m.takeWhile p = m ∧ m.dropWhile p = [] := by
  induction m with
  | nil => simp
  | cons a t ih =>
    have ha : p a = true := hm a (by simp)
    have iht := ih (fun x hx => hm x (by simp [hx]))
    simp [List.takeWhile_cons, List.dropWhile_cons, ha, iht.1, iht.2]

theorem head?_eq_cons {l : List Char} {c : Char} (h : l.head? = some c) :
    ∃ t, l = c :: t := by
  cases l with
  | nil => simp at h
  | cons a t => simp only [List.head?_cons, Option.some.injEq] at h; exact ⟨t, by simp [h]⟩

theorem mdyParse_eq_some (l m d y : List Char) :
    mdyParse l = some (m, d, y) ↔
      (l = m ++ '/' :: (d ++ '/' :: y) ∧
        1 ≤ m.length ∧ m.length ≤ 2 ∧ (∀ c ∈ m, isDigitCh c = true) ∧
        1 ≤ d.length ∧ d.length ≤ 2 ∧ (∀ c ∈ d, isDigitCh c = true) ∧
        y.length = 4 ∧ (∀ c ∈ y, isDigitCh c = true)) := by
  constructor
  · intro h
    simp only [mdyParse] at h
    split at h
    case isFalse => simp at h
    case isTrue hc =>
      obtain ⟨hm1, hm2, hh1, hd1, hd2, hh2, hy4, hr5⟩ := hc
      simp only [Option.some.injEq, Prod.mk.injEq] at h
      obtain ⟨hm, hd, hy⟩ := h
      obtain ⟨t1, e1⟩ := head?_eq_cons hh1
      simp only [e1, List.tail_cons] at hd1 hd2 hh2 hy4 hr5 hd hy
      obtain ⟨t3, e2⟩ := head?_eq_cons hh2
      simp only [e2, List.tail_cons] at hy4 hr5 hy
      have hC := List.takeWhile_append_dropWhile isDigitCh t3
      rw [hr5, List.append_nil] at hC
      subst hm; subst hd; subst hy
      refine ⟨?_, hm1, hm2, fun c hc => List.mem_takeWhile_imp hc,
        hd1, hd2, fun c hc => List.mem_takeWhile_imp hc,
        hy4, fun c hc => List.mem_takeWhile_imp hc⟩
      have ht1 : t1 = t1.takeWhile isDigitCh ++ '/' :: t3.takeWhile isDigitCh := by
        conv_rhs => rw [hC]
        rw [← e2]
        exact (List.takeWhile_append_dropWhile isDigitCh t1).symm
      calc l = l.takeWhile isDigitCh ++ l.dropWhile isDigitCh :=
            (List.takeWhile_append_dropWhile isDigitCh l).symm
        _ = l.takeWhile isDigitCh ++ '/' :: t1 := by rw [e1]
        _ = l.takeWhile isDigitCh ++ '/' :: (t1.takeWhile isDigitCh ++ '/' ::
              t3.takeWhile isDigitCh) := by rw [← ht1]
  · rintro ⟨hl, hm1, hm2, hmd, hd1, hd2, hdd, hy4, hyd⟩
    have hslash : isDigitCh '/' = false := by decide
    have h1 := takeWhile_append_eq isDigitCh m '/' (d ++ '/' :: y) hmd hslash
    have h2 := takeWhile_append_eq isDigitCh d '/' y hdd hslash
    have h3 := takeWhile_all_eq isDigitCh y hyd
    subst hl
    simp only [mdyParse]
    rw [h1.1, h1.2]
    simp only [List.tail_cons, List.head?_cons]
    rw [h2.1, h2.2]
    simp only [List.tail_cons, List.head?_cons]
    rw [h3.1, h3.2]
    simp [hm1, hm2, hd1, hd2, hy4]

theorem mdyTest_iff (l : List Char) : mdyTest l = true ↔ MDYShape l := by
  constructor
  · intro h
    unfold mdyTest at h
    obtain ⟨⟨m, d, y⟩, hmdy⟩ := Option.isSome_iff_exists.mp h
    exact ⟨m, d, y, (mdyParse_eq_some l m d y).mp hmdy⟩
  · rintro ⟨m, d, y, hprops⟩
    unfold mdyTest
    rw [(mdyParse_eq_some l m d y).mpr hprops]
    rfl

theorem isoTest_iff (l : List Char) : isoTest l = true ↔ ISOShape l := by
  constructor
  · intro h
    simp only [isoTest, Bool.and_eq_true, decide_eq_true_eq] at h
    obtain ⟨⟨⟨⟨⟨hy4, hh1⟩, hmo2⟩, hh2⟩, hd2⟩, hr5⟩ := h
    obtain ⟨t1, e1⟩ := head?_eq_cons hh1
    simp only [e1, List.tail_cons] at hmo2 hh2 hd2 hr5
    obtain ⟨t3, e2⟩ := head?_eq_cons hh2
    simp only [e2, List.tail_cons] at hd2 hr5
    have hC := List.takeWhile_append_dropWhile isDigitCh t3
    rw [hr5, List.append_nil] at hC
    refine ⟨l.takeWhile isDigitCh, t1.takeWhile isDigitCh, t3.takeWhile isDigitCh,
      ?_, hy4, fun c hc => List.mem_takeWhile_imp hc,
      hmo2, fun c hc => List.mem_takeWhile_imp hc,
      hd2, fun c hc => List.mem_takeWhile_imp hc⟩
    have ht1 : t1 = t1.takeWhile isDigitCh ++ '-' :: t3.takeWhile isDigitCh := by
      conv_rhs => rw [hC]
      rw [← e2]
      exact (List.takeWhile_append_dropWhile isDigitCh t1).symm
    calc l = l.takeWhile isDigitCh ++ l.dropWhile isDigitCh :=
          (List.takeWhile_append_dropWhile isDigitCh l).symm
      _ = l.takeWhile isDigitCh ++ '-' :: t1 := by rw [e1]
      _ = l.takeWhile isDigitCh ++ '-' :: (t1.takeWhile isDigitCh ++ '-' ::
            t3.takeWhile isDigitCh) := by rw [← ht1]
  · rintro ⟨y, mo, d, hl, hy4, hyd, hmo2, hmod, hd2, hdd⟩
    have hdash : isDigitCh '-' = false := by decide
    have h1 := takeWhile_append_eq isDigitCh y '-' (mo ++ '-' :: d) hyd hdash
    have h2 := takeWhile_append_eq isDigitCh mo '-' d hmod hdash
    have h3 := takeWhile_all_eq isDigitCh d hdd
    subst hl
    simp only [isoTest, h1.1, h1.2, List.tail_cons, List.head?_cons, h2.1, h2.2, h3.1, h3.2]
    simp [hy4, hmo2, hd2]

/-! ## First-occurrence characterization of the non-global replace -/

theorem findMatchIdx_least (t : List Char → Option (List Char)) :
    ∀ (l : List Char) (i : Nat) (r : List Char), findMatchIdx t l = some (i, r) →
      t (l.drop i) = some r ∧ ∀ j, j < i → t (l.drop j) = none := by
  intro l
  induction l with
  | nil =>
    intro i r h
    unfold findMatchIdx at h
    cases ht : t [] with
    | none => rw [ht] at h; simp at h
    | some r0 =>
      rw [ht] at h
      simp only [Option.map_some', Option.some.injEq, Prod.mk.injEq] at h
      obtain ⟨hi, hr⟩ := h
      subst hi; subst hr
      exact ⟨ht, fun j hj => absurd hj (by omega)⟩
  | cons c rest ih =>
    intro i r h
    unfold findMatchIdx at h
    cases ht : t (c :: rest) with
    | some r0 =>
      rw [ht] at h
      simp only [Option.some.injEq, Prod.mk.injEq] at h
      obtain ⟨hi, hr⟩ := h
      subst hi; subst hr
      exact ⟨ht, fun j hj => absurd hj (by omega)⟩
    | none =>
      rw [ht] at h
      simp only [Option.map_eq_some'] at h
      obtain ⟨ir, hir, hir2⟩ := h
      obtain ⟨hi, hr⟩ := Prod.mk.injEq _ _ _ _ ▸ hir2
      subst hr
      obtain ⟨hdrop, hleast⟩ := ih ir.1 ir.2 (by rw [hir])
      constructor
      · rw [← hi]; simpa using hdrop
      · intro j hj
        match j with
        | 0 => exact ht
        | j' + 1 =>
          have : j' < ir.1 := by omega
          simpa using hleast j' this

theorem replaceFirstP_eq_removeFirstOcc (t : List Char → Option (List Char)) :
    ∀ l, replaceFirstP t l = removeFirstOcc t l := by
  intro l
  induction l with
  | nil =>
    unfold replaceFirstP removeFirstOcc findMatchIdx
    cases h : t [] <;> simp [h]
  | cons c rest ih =>
    unfold replaceFirstP removeFirstOcc findMatchIdx
    cases h : t (c :: rest) with
    | some r => simp [h]
    | none =>
      simp only [h]
      rw [ih]
      unfold removeFirstOcc
      cases h2 : findMatchIdx t rest with
      | none => simp [h2]
      | some ir => simp [h2, List.take_succ_cons]

/-! ## Claim C1 -/

/-- C1 (confirmed): for every transaction whose `Amount` is strictly
positive, the Categorizer assigns the category `"Income"` without
consulting any keyword rule — for every possible CategoryStore content
(even one whose keywords would not compile) and every Description
string. -/
theorem C1_income_unconditional (store : Store) (t : Txn) (h : 0 < t.Amount) :
    categorizeRow store t = .ok ("Income", ⟨t.Date, t.Amount, strictClean t.Description⟩) := by
  simp [categorizeRow, assignCategory, if_pos h, Except.map]

theorem C1_income_unconditional_witness :
    (0 : ℚ) < 1 ∧
      categorizeRow [("(((", "Broken")] ⟨"2024-01-01", 1, "anything"⟩ =
        .ok ("Income", ⟨"2024-01-01", 1, "ANYTHING"⟩) :=
  ⟨by decide,
    (C1_income_unconditional [("(((", "Broken")] ⟨"2024-01-01", 1, "anything"⟩
      (by decide)).trans (by decide)⟩

/-! ## Claim C10 -/

/-- C10 (confirmed): categorization is not total over all reachable
CategoryStore states.  The keyword `"((("` passes the commit filter
(length ≥ 3, not all digits) and so can reach the custom table, but
`new RegExp("\\b(((\\b", "i")` is an invalid pattern (unbalanced
parentheses), so `categorizeTransactions` throws instead of returning a
grouping. -/
theorem C10_regex_construction_throws :
    3 ≤ ("(((" : String).length ∧ allDigitsTest "(((" = false ∧
      parseKeywords "(((" = ["((("] ∧
      categorizeTransactions [("(((", "Tech")] [⟨"2024-01-01", -5, "SOMETHING"⟩] =
        .error () :=
  ⟨by decide, by decide, by decide, by decide⟩

/-! ## Claim C7 -/

/-- C7 counterexample: the claim says any input that is neither empty nor
date-shaped is returned unchanged, but `normalizeDate` trims its input:
`" N/A "` comes back as `"N/A"`. -/
theorem C7_counterexample :
    normalizeDate " N/A " = "N/A" ∧ ("N/A" : String) ≠ " N/A " :=
  ⟨by decide, by decide⟩

/-- C7 (amended): `normalizeDate` returns `""` on empty input; otherwise
it trims the input first; a trimmed `YYYY-MM-DD` string is returned as
is; a trimmed `M/D/YYYY` / `MM/DD/YYYY` string is rewritten to
`YYYY-MM-DD` with zero-padded month and day; any other input is returned
trimmed (unchanged only when already trimmed). -/
theorem C7_normalizeDate_amended (s : String) :
    (s = "" → normalizeDate s = "") ∧
    (ISOShape (jsTrimS s).data → normalizeDate s = jsTrimS s) ∧
    (∀ m d y : List Char,
      (jsTrimS s).data = m ++ '/' :: (d ++ '/' :: y) →
      1 ≤ m.length → m.length ≤ 2 → (∀ c ∈ m, isDigitCh c = true) →
      1 ≤ d.length → d.length ≤ 2 → (∀ c ∈ d, isDigitCh c = true) →
      y.length = 4 → (∀ c ∈ y, isDigitCh c = true) →
      normalizeDate s = ⟨y ++ '-' :: (pad2 m ++ '-' :: pad2 d)⟩) ∧
    (¬ ISOShape (jsTrimS s).data → ¬ MDYShape (jsTrimS s).data →
      normalizeDate s = jsTrimS s) := by
  by_cases hs : s = ""
  · subst hs
    refine ⟨fun _ => rfl, ?_, ?_, fun _ _ => rfl⟩
    · intro h
      obtain ⟨y, mo, d, hl, hy4, -⟩ := h
      have : (jsTrimS "").data = [] := by decide
      rw [this] at hl
      have := congrArg List.length hl
      simp [hy4] at this
      omega
    · intro m d y hl h1 _ _ _ _ _ _ _
      have : (jsTrimS "").data = [] := by decide
      rw [this] at hl
      have := congrArg List.length hl
      simp at this
      omega
  · have htrim : (jsTrimS s).data = trimL s.data := rfl
    refine ⟨fun h => absurd h hs, ?_, ?_, ?_⟩
    · intro hiso
      have : isoTest (trimL s.data) = true := (isoTest_iff _).mpr (htrim ▸ hiso)
      simp [normalizeDate, hs, this, jsTrimS]
    · intro m d y hl hm1 hm2 hmd hd1 hd2 hdd hy4 hyd
      rw [htrim] at hl
      have hparse : mdyParse (trimL s.data) = some (m, d, y) :=
        (mdyParse_eq_some _ m d y).mpr ⟨hl, hm1, hm2, hmd, hd1, hd2, hdd, hy4, hyd⟩
      have hnotiso : isoTest (trimL s.data) = false := by
        by_contra hne
        have hiso := (isoTest_iff _).mp (Bool.of_not_eq_false hne)
        obtain ⟨y', mo', d', hl', hy4', hyd', -⟩ := hiso
        have e1 : (trimL s.data).takeWhile isDigitCh = m := by
          rw [hl]
          exact (takeWhile_append_eq isDigitCh m '/' (d ++ '/' :: y) hmd (by decide)).1
        have e2 : (trimL s.data).takeWhile isDigitCh = y' := by
          rw [hl']
          exact (takeWhile_append_eq isDigitCh y' '-' (mo' ++ '-' :: d') hyd' (by decide)).1
        rw [e1] at e2
        have := congrArg List.length e2
        omega
      simp [normalizeDate, hs, hnotiso, hparse]
    · intro hniso hnmdy
      have h1 : isoTest (trimL s.data) = false := by
        by_contra hne
        exact hniso (htrim ▸ (isoTest_iff _).mp (Bool.of_not_eq_false hne))
      have h2 : mdyParse (trimL s.data) = none := by
        cases hp : mdyParse (trimL s.data) with
        | none => rfl
        | some mdy =>
          obtain ⟨hl, hprops⟩ := (mdyParse_eq_some _ mdy.1 mdy.2.1 mdy.2.2).mp (by
            rw [hp])
          exact absurd ⟨mdy.1, mdy.2.1, mdy.2.2, htrim ▸ hl, hprops⟩ hnmdy
      simp [normalizeDate, hs, h1, h2, jsTrimS]

theorem C7_normalizeDate_amended_witness :
    normalizeDate "" = "" ∧ normalizeDate "2024-03-04" = "2024-03-04" ∧
      normalizeDate "3/4/2024" = "2024-03-04" ∧ normalizeDate "N/A" = "N/A" := by
  refine ⟨(C7_normalizeDate_amended "").1 rfl, ?_, ?_, ?_⟩
  · exact ((C7_normalizeDate_amended "2024-03-04").2.1
      ⟨['2','0','2','4'], ['0','3'], ['0','4'], by decide, by decide, by decide,
        by decide, by decide, by decide, by decide⟩).trans (by decide)
  · exact ((C7_normalizeDate_amended "3/4/2024").2.2.1 ['3'] ['4'] ['2','0','2','4']
      (by decide) (by decide) (by decide) (by decide) (by decide) (by decide)
      (by decide) (by decide) (by decide)).trans (by decide)
  · refine ((C7_normalizeDate_amended "N/A").2.2.2 ?_ ?_).trans (by decide)
    · intro h
      exact absurd ((isoTest_iff _).mpr h) (by decide)
    · intro h
      exact absurd ((mdyTest_iff _).mpr h) (by decide)

/-! ## Claim C9 -/

/-- C9 counterexample: the claim says `cleanDesc` removes all occurrences
of the boilerplate patterns, but the source regexes have no `g` flag, so
only the first occurrence of each pattern is removed: on
`"CARD 1 CARD 2"` the code leaves `"CARD 2"`, while the remove-all
reading yields `""`. -/
theorem C9_counterexample :
    cleanDesc "CARD 1 CARD 2" = "CARD 2" ∧ cleanDescAllOcc "CARD 1 CARD 2" = "" ∧
      cleanDesc "CARD 1 CARD 2" ≠ cleanDescAllOcc "CARD 1 CARD 2" :=
  ⟨by decide, by decide, by decide⟩

/-- C9 (amended): for every input string, `cleanDesc` removes the first
occurrence (at the least start index, as `findMatchIdx` computes) of the
case-insensitive `PURCHASE AUTHORIZED ON <2digits>/<2digits>` pattern,
then the first occurrence of the case-insensitive `CARD <digits>`
pattern, collapses every run of 2+ whitespace characters to a single
space, trims, and uppercases. -/
theorem C9_cleanDesc_amended (s : String) :
    cleanDesc s =
      ⟨toUpperL (trimL (collapseWs (removeFirstOcc tryCard
        (removeFirstOcc tryPurch s.data))))⟩ := by
  unfold cleanDesc descPipe
  rw [replaceFirstP_eq_removeFirstOcc, replaceFirstP_eq_removeFirstOcc]

/-! ## Claim C8 -/

/-- C8 (confirmed): `normalizeAmount` returns 0 on a null/absent cell,
strips commas and dollar signs, forces the sign negative on a
parenthesized (accounting-style) value, parses the rest as a number,
returns 0 on unparsable input including the empty string, and meets the
spec's four concrete examples.  (Numbers are modelled as exact rationals;
the spec's decimal-literal equalities hold exactly.) -/
theorem C8_normalizeAmount :
    normalizeAmount none = 0 ∧
    normalizeAmount (some "$1,234.56") = 1234.56 ∧
    normalizeAmount (some "(12.00)") = -12 ∧
    normalizeAmount (some "") = 0 ∧
    (∀ s : String, parenWrapped (trimL s.data) = true → normalizeAmount (some s) ≤ 0) := by
  refine ⟨rfl, ?_, ?_, ?_, ?_⟩
  · have h3 : jsParseFloat (if stripMoney (trimL "$1,234.56".data) = [] then ['0']
        else stripMoney (trimL "$1,234.56".data)) = some (123456, 2) := by decide
    have h2 : parenWrapped (trimL "$1,234.56".data) = false := by decide
    simp only [normalizeAmount, h3, h2]
    norm_num
  · have h3 : jsParseFloat (if stripMoney (trimL "(12.00)".data) = [] then ['0']
        else stripMoney (trimL "(12.00)".data)) = some (1200, 2) := by decide
    have h2 : parenWrapped (trimL "(12.00)".data) = true := by decide
    simp only [normalizeAmount, h3, h2]
    rw [if_pos trivial, abs_of_nonneg (by positivity)]
    norm_num
  · have h3 : jsParseFloat (if stripMoney (trimL "".data) = [] then ['0']
        else stripMoney (trimL "".data)) = some (0, 0) := by decide
    have h2 : parenWrapped (trimL "".data) = false := by decide
    simp only [normalizeAmount, h3, h2]
    norm_num
  · intro s hp
    simp only [normalizeAmount, hp]
    cases h : jsParseFloat (if stripMoney (trimL s.data) = [] then ['0']
        else stripMoney (trimL s.data)) with
    | none => simp
    | some ik =>
      simp only
      exact neg_nonpos.mpr (abs_nonneg _)

theorem C8_normalizeAmount_witness :
    parenWrapped (trimL "(5)".data) = true ∧ normalizeAmount (some "(5)") ≤ 0 :=
  ⟨by decide, C8_normalizeAmount.2.2.2.2 "(5)" (by decide)⟩

/-! ## Claim C6 -/

/-- Claim-side case-insensitive string equality. -/
def ciEqStr (a b : String) : Prop := toLowerS a = toLowerS b

/-- Claim-side header-row condition: c0..c4 case-insensitively equal to
`date, transaction, name, memo, amount`. -/
def HeaderRow (row : List String) : Prop :=
  ciEqStr (cellAt row 0) "date" ∧ ciEqStr (cellAt row 1) "transaction" ∧
    ciEqStr (cellAt row 2) "name" ∧ ciEqStr (cellAt row 3) "memo" ∧
    ciEqStr (cellAt row 4) "amount"

theorem headerRow_iff (row : List String) :
    (toLowerS (cellAt row 0) = "date" ∧ toLowerS (cellAt row 1) = "transaction" ∧
      toLowerS (cellAt row 2) = "name" ∧ toLowerS (cellAt row 3) = "memo" ∧
      toLowerS (cellAt row 4) = "amount") ↔ HeaderRow row := by
  unfold HeaderRow ciEqStr
  rw [show toLowerS "date" = "date" from by decide,
    show toLowerS "transaction" = "transaction" from by decide,
    show toLowerS "name" = "name" from by decide,
    show toLowerS "memo" = "memo" from by decide,
    show toLowerS "amount" = "amount" from by decide]

/-- C6 (confirmed): `detectProfile` returns `Unknown` for a row of fewer
than 3 cells, and otherwise decides by the first matching rule in order:
header row ⇒ `USBank_WithHeaders`; c0 of shape M/D/YYYY or MM/DD/YYYY
with c2 = `"*"` ⇒ `YourBank_NoHeader_5Cols`; c0 of shape YYYY-MM-DD with
at least 5 cells ⇒ `USBank_NoHeaderBody`; otherwise `Unknown` (cells are
quote-stripped and trimmed, per the source). -/
theorem C6_detectProfile (row : List String) :
    (row.length < 3 → detectProfile row = .unknown) ∧
    (3 ≤ row.length →
      (HeaderRow row → detectProfile row = .usBankHeaders) ∧
      (¬ HeaderRow row → MDYShape (cellAt row 0).data → cellAt row 2 = "*" →
        detectProfile row = .yourBank5) ∧
      (¬ HeaderRow row → ¬ (MDYShape (cellAt row 0).data ∧ cellAt row 2 = "*") →
        ISOShape (cellAt row 0).data → 5 ≤ row.length → detectProfile row = .usBankBody) ∧
      (¬ HeaderRow row → ¬ (MDYShape (cellAt row 0).data ∧ cellAt row 2 = "*") →
        ¬ (ISOShape (cellAt row 0).data ∧ 5 ≤ row.length) →
        detectProfile row = .unknown)) := by
  constructor
  · intro h
    simp [detectProfile, h]
  · intro h3
    have hnot : ¬ row.length < 3 := by omega
    refine ⟨?_, ?_, ?_, ?_⟩
    · intro hH
      obtain ⟨h0, h1, h2, hm, ha⟩ := (headerRow_iff row).mpr hH
      simp only [detectProfile, if_neg hnot]
      rw [if_pos ⟨h0, h1, h2, hm, ha⟩]
    · intro hnH hMDY hstar
      have hH' : ¬ (toLowerS (cellAt row 0) = "date" ∧
          toLowerS (cellAt row 1) = "transaction" ∧ toLowerS (cellAt row 2) = "name" ∧
          toLowerS (cellAt row 3) = "memo" ∧ toLowerS (cellAt row 4) = "amount") :=
        fun h => hnH ((headerRow_iff row).mp h)
      have hmdy : mdyTest (cellAt row 0).data = true := (mdyTest_iff _).mpr hMDY
      simp only [detectProfile, if_neg hnot]
      rw [if_neg hH', if_pos ⟨hmdy, hstar⟩]
    · intro hnH hnMDY hISO h5
      have hH' : ¬ (toLowerS (cellAt row 0) = "date" ∧
          toLowerS (cellAt row 1) = "transaction" ∧ toLowerS (cellAt row 2) = "name" ∧
          toLowerS (cellAt row 3) = "memo" ∧ toLowerS (cellAt row 4) = "amount") :=
        fun h => hnH ((headerRow_iff row).mp h)
      have hnmdy : ¬ (mdyTest (cellAt row 0).data = true ∧ cellAt row 2 = "*") :=
        fun h => hnMDY ⟨(mdyTest_iff _).mp h.1, h.2⟩
      have hiso : isoTest (cellAt row 0).data = true := (isoTest_iff _).mpr hISO
      simp only [detectProfile, if_neg hnot]
      rw [if_neg hH', if_neg hnmdy, if_pos ⟨hiso, h5⟩]
    · intro hnH hnMDY hnISO
      have hH' : ¬ (toLowerS (cellAt row 0) = "date" ∧
          toLowerS (cellAt row 1) = "transaction" ∧ toLowerS (cellAt row 2) = "name" ∧
          toLowerS (cellAt row 3) = "memo" ∧ toLowerS (cellAt row 4) = "amount") :=
        fun h => hnH ((headerRow_iff row).mp h)
      have hnmdy : ¬ (mdyTest (cellAt row 0).data = true ∧ cellAt row 2 = "*") :=
        fun h => hnMDY ⟨(mdyTest_iff _).mp h.1, h.2⟩
      have hniso : ¬ (isoTest (cellAt row 0).data = true ∧ 5 ≤ row.length) :=
        fun h => hnISO ⟨(isoTest_iff _).mp h.1, h.2⟩
      simp only [detectProfile, if_neg hnot, if_neg hH', if_neg hnmdy, if_neg hniso]

theorem C6_detectProfile_witness :
    detectProfile ["a"] = .unknown ∧
      detectProfile ["Date", "Transaction", "Name", "Memo", "Amount"] = .usBankHeaders ∧
      detectProfile ["3/4/2024", "-12.00", "*", "", "COFFEE SHOP"] = .yourBank5 ∧
      detectProfile ["2024-03-04", "DEBIT", "ACME", "RENT", "-900.00"] = .usBankBody ∧
      detectProfile ["hello", "world", "zzz"] = .unknown := by
  refine ⟨(C6_detectProfile ["a"]).1 (by decide), ?_, ?_, ?_, ?_⟩
  · exact ((C6_detectProfile _).2 (by decide)).1 (by
      unfold HeaderRow ciEqStr; refine ⟨by decide, by decide, by decide, by decide, by decide⟩)
  · refine ((C6_detectProfile _).2 (by decide)).2.1 ?_ ?_ (by decide)
    · intro h
      unfold HeaderRow ciEqStr at h
      exact absurd h.1 (by decide)
    · exact ⟨['3'], ['4'], ['2','0','2','4'], by decide, by decide, by decide, by decide,
        by decide, by decide, by decide, by decide, by decide⟩
  · refine ((C6_detectProfile _).2 (by decide)).2.2.1 ?_ ?_ ?_ (by decide)
    · intro h
      unfold HeaderRow ciEqStr at h
      exact absurd h.1 (by decide)
    · intro h
      exact absurd ((mdyTest_iff _).mpr h.1) (by decide)
    · exact ⟨['2','0','2','4'], ['0','3'], ['0','4'], by decide, by decide, by decide,
        by decide, by decide, by decide, by decide⟩
  · refine ((C6_detectProfile _).2 (by decide)).2.2.2 ?_ ?_ ?_
    · intro h
      unfold HeaderRow ciEqStr at h
      exact absurd h.1 (by decide)
    · intro h
      exact absurd ((mdyTest_iff _).mpr h.1) (by decide)
    · intro h
      exact absurd ((isoTest_iff _).mpr h.1) (by decide)

/-! ## Claim C5: stage-identity lemmas for the stricter cleaning pass -/

theorem dropWhile_head_not (p : Char → Bool) :
    ∀ (l : List Char) (c : Char), (l.dropWhile p).head? = some c → p c = false := by
  intro l
  induction l with
  | nil => intro c h; simp at h
  | cons a t ih =>
    intro c h
    rw [List.dropWhile_cons] at h
    by_cases ha : p a = true
    · rw [if_pos ha] at h
      exact ih c h
    · rw [if_neg ha] at h
      simp only [List.head?_cons, Option.some.injEq] at h
      rw [← h]
      exact Bool.eq_false_iff.mpr ha

theorem dropWhile_idem (p : Char → Bool) (l : List Char) :
    (l.dropWhile p).dropWhile p = l.dropWhile p := by
  cases h : l.dropWhile p with
  | nil => rfl
  | cons a t =>
    have ha : p a = false := dropWhile_head_not p l a (by rw [h]; rfl)
    rw [List.dropWhile_cons, if_neg (by simp [ha])]

theorem trimL_lead_idem (l : List Char) : (trimL l).dropWhile isJsWs = trimL l := by
  unfold trimL
  cases hBr : ((l.dropWhile isJsWs).reverse.dropWhile isJsWs).reverse with
  | nil => simp
  | cons c t =>
    have h0 := List.takeWhile_append_dropWhile isJsWs (l.dropWhile isJsWs).reverse
    have h1 := congrArg List.reverse h0
    rw [List.reverse_append, List.reverse_reverse] at h1
    have hhead : (l.dropWhile isJsWs).head? = some c := by
      rw [← h1, hBr]
      simp
    have hc := dropWhile_head_not isJsWs l c hhead
    rw [List.dropWhile_cons, if_neg (by simp [hc])]

theorem trimL_idem (l : List Char) : trimL (trimL l) = trimL l := by
  have htriml : trimL l = ((l.dropWhile isJsWs).reverse.dropWhile isJsWs).reverse := rfl
  show (((trimL l).dropWhile isJsWs).reverse.dropWhile isJsWs).reverse = trimL l
  rw [trimL_lead_idem]
  conv_lhs => rw [htriml]
  rw [List.reverse_reverse, dropWhile_idem]
  exact htriml.symm

theorem mem_trimL {c : Char} {l : List Char} (h : c ∈ trimL l) : c ∈ l := by
  unfold trimL at h
  have h1 := List.mem_reverse.mp h
  have h2 := (List.dropWhile_sublist isJsWs).subset h1
  have h3 := List.mem_reverse.mp h2
  exact (List.dropWhile_sublist isJsWs).subset h3

theorem replaceFirstP_of_not_hasOccur (t : List Char → Option (List Char)) :
    ∀ l, hasOccur t l = false → replaceFirstP t l = l := by
  intro l
  induction l with
  | nil =>
    intro h
    unfold hasOccur at h
    unfold replaceFirstP
    cases ht : t [] with
    | none => rfl
    | some r => rw [ht] at h; simp at h
  | cons c rest ih =>
    intro h
    unfold hasOccur at h
    simp only [Bool.or_eq_false_iff] at h
    unfold replaceFirstP
    cases ht : t (c :: rest) with
    | some r => rw [ht] at h; simp at h
    | none => rw [ih h.2]

theorem matchCI_append : ∀ (pat l r : List Char), matchCI pat l = some r →
    ∃ pre, l = pre ++ r := by
  intro pat
  induction pat with
  | nil =>
    intro l r h
    unfold matchCI at h
    simp only [Option.some.injEq] at h
    exact ⟨[], by simp [h]⟩
  | cons p ps ih =>
    intro l r h
    cases l with
    | nil => simp [matchCI] at h
    | cons c cs =>
      unfold matchCI at h
      split at h
      · obtain ⟨pre, hp⟩ := ih cs r h
        exact ⟨c :: pre, by simp [hp]⟩
      · simp at h

theorem tryPurch_some_mem {l r : List Char} (h : tryPurch l = some r) : '/' ∈ l := by
  unfold tryPurch at h
  cases hm : matchCI "PURCHASE AUTHORIZED ON ".data l with
  | none => rw [hm] at h; simp at h
  | some r0 =>
    rw [hm] at h
    obtain ⟨pre, hpre⟩ := matchCI_append _ _ _ hm
    subst hpre
    match r0, h with
    | [], h => exact absurd h (by simp)
    | [a], h => exact absurd h (by simp)
    | [a, b], h => exact absurd h (by simp)
    | [a, b, s], h => exact absurd h (by simp)
    | [a, b, s, c], h => exact absurd h (by simp)
    | a :: b :: s :: c :: d :: rest, h =>
      by_cases hcond :
          (isDigitCh a && isDigitCh b && decide (s = '/') && isDigitCh c && isDigitCh d) = true
      · simp only [Bool.and_eq_true, decide_eq_true_eq] at hcond
        rw [hcond.1.1.2]
        simp
      · have h' : (if (isDigitCh a && isDigitCh b && decide (s = '/') && isDigitCh c &&
            isDigitCh d) = true then some rest else (none : Option (List Char))) = some r := h
        rw [if_neg hcond] at h'
        exact absurd h' (by simp)

theorem hasOccur_purch_of_allowed :
    ∀ l : List Char, (∀ c ∈ l, isUpperAlnumSp c = true) → hasOccur tryPurch l = false := by
  intro l
  induction l with
  | nil => intro _; decide
  | cons c rest ih =>
    intro hall
    unfold hasOccur
    have h2 := ih (fun x hx => hall x (by simp [hx]))
    cases ht : tryPurch (c :: rest) with
    | none => simp [h2]
    | some r => exact absurd (hall '/' (tryPurch_some_mem ht)) (by decide)

theorem collapseWsAux_of_no_run :
    ∀ (fuel : Nat) (l : List Char), hasWsRun l = false → collapseWsAux fuel l = l := by
  intro fuel
  induction fuel with
  | zero => intro l _; rfl
  | succ n ih =>
    intro l h
    match l with
    | [] => rfl
    | [c] => rfl
    | c :: c2 :: t =>
      unfold hasWsRun at h
      simp only [Bool.or_eq_false_iff] at h
      unfold collapseWsAux
      rw [if_neg (by simp [h.1])]
      rw [ih (c2 :: t) h.2]

theorem collapseWs_of_no_run (l : List Char) (h : hasWsRun l = false) : collapseWs l = l :=
  collapseWsAux_of_no_run l.length l h

theorem toUpperL_of_allowed :
    ∀ l : List Char, (∀ c ∈ l, isUpperAlnumSp c = true) → toUpperL l = l := by
  intro l
  induction l with
  | nil => intro _; rfl
  | cons c rest ih =>
    intro h
    have hc := h c (by simp)
    have hrest := ih (fun x hx => h x (by simp [hx]))
    unfold toUpperL at hrest ⊢
    simp only [List.map_cons]
    rw [hrest]
    congr 1
    unfold jsToUpperChar
    rw [if_neg]
    unfold isUpperAlnumSp at hc
    simp only [decide_eq_true_eq] at hc
    rintro ⟨hlo, hhi⟩
    rcases hc with ⟨h1, h2⟩ | ⟨h1, h2⟩ | h1 <;> omega

/-- C5 counterexample: the stricter pass is not idempotent.  Stripping
non-alphanumerics happens after the whitespace collapse, so it can create
new runs of spaces: on `"A . . B"` one application yields `"A   B"`,
while a second application collapses that to `"A B"`. -/
theorem C5_counterexample :
    strictClean "A . . B" = "A   B" ∧ strictClean (strictClean "A . . B") = "A B" ∧
      strictClean (strictClean "A . . B") ≠ strictClean "A . . B" :=
  ⟨by decide, by decide, by decide⟩

/-- C5 (amended): the stricter cleaning pass is idempotent on every input
whose single application produces no run of two or more adjacent
whitespace characters and no occurrence of the `CARD <digits>` pattern.
(Both provisos are necessary: stripping characters after the whitespace
collapse can create new space runs, and a cleaned string can still
contain `CARD <digits>` text that a second pass would remove.) -/
theorem C5_strictClean_amended (s : String)
    (h1 : hasWsRun (strictClean s).data = false)
    (h2 : hasOccur tryCard (strictClean s).data = false) :
    strictClean (strictClean s) = strictClean s := by
  have hall : ∀ c ∈ (strictClean s).data, isUpperAlnumSp c = true := by
    intro c hc
    exact List.of_mem_filter (mem_trimL hc)
  have houter : strictClean (strictClean s) =
      ⟨trimL (List.filter isUpperAlnumSp (toUpperL (descPipe (strictClean s).data)))⟩ := rfl
  rw [houter]
  unfold descPipe
  rw [replaceFirstP_of_not_hasOccur tryPurch _ (hasOccur_purch_of_allowed _ hall)]
  rw [replaceFirstP_of_not_hasOccur tryCard _ h2]
  rw [collapseWs_of_no_run _ h1]
  rw [toUpperL_of_allowed _ hall]
  rw [List.filter_eq_self.mpr hall]
  have hdata : (strictClean s).data =
      trimL (List.filter isUpperAlnumSp (toUpperL (descPipe s.data))) := rfl
  rw [hdata, trimL_idem, ← hdata]

theorem C5_strictClean_amended_witness :
    hasWsRun (strictClean "Acme Coffee. Card 77x").data = false ∧
      hasOccur tryCard (strictClean "Acme Coffee. Card 77x").data = false ∧
      strictClean (strictClean "Acme Coffee. Card 77x") =
        strictClean "Acme Coffee. Card 77x" :=
  ⟨by decide, by decide, C5_strictClean_amended "Acme Coffee. Card 77x" (by decide) (by decide)⟩

/-! ## Claim C4 -/

/-- C4 counterexample: committing the keyword string `"!!"` (non-empty,
but filtering to no valid keyword) is not rejected.  The action returns
success with the custom table unchanged, and the reassignment move still
runs: the selected transaction is moved out of `"Uncategorized"` into the
target group, so state is mutated on this path. -/
theorem C4_counterexample :
    parseKeywords "!!" = [] ∧
      assignSelected [("OLD", "Stuff")] [("Uncategorized", [⟨"2024-01-01", -3, "ACME"⟩])]
          [⟨"2024-01-01", -3, "ACME"⟩] "Food" "" "!!" =
        .ok ([("OLD", "Stuff")],
          [("Uncategorized", []), ("Food", [⟨"2024-01-01", -3, "ACME"⟩])]) ∧
      ([("Uncategorized", ([] : List Txn)), ("Food", [⟨"2024-01-01", -3, "ACME"⟩])] ≠
        [("Uncategorized", [⟨"2024-01-01", -3, "ACME"⟩])]) :=
  ⟨by decide, by decide, by decide⟩

/-- C4 (amended): the commit step trims and uppercases each
comma-separated entry and discards entries of length < 3 or composed
entirely of digits; but when the filtered list is empty (and the raw
input itself is non-empty), the action is not rejected: the custom table
is left unchanged (an identical table is re-saved) and the reassignment
of the selected transactions still proceeds. -/
theorem C4_commit_empty_filter_amended (raw : String) :
    (∀ k ∈ parseKeywords raw, 3 ≤ k.length ∧ allDigitsTest k = false ∧
      ∃ e ∈ splitComma raw.data, k = toUpperS ⟨trimL e⟩) ∧
    (∀ (custom : Store) (gs : Groups) (sel : List Txn) (dd nn : String),
      sel ≠ [] → ¬(dd = "New Category..." ∧ jsTrimS nn = "") → raw ≠ "" →
      parseKeywords raw = [] →
      assignSelected custom gs sel dd nn raw =
        .ok (custom, reassign gs sel (if dd = "New Category..." then jsTrimS nn else dd))) := by
  constructor
  · intro k hk
    unfold parseKeywords at hk
    have hfil := List.of_mem_filter hk
    have hmem := List.mem_of_mem_filter hk
    simp only [Bool.and_eq_true, decide_eq_true_eq, Bool.not_eq_true'] at hfil
    obtain ⟨e, he, hke⟩ := List.mem_map.mp hmem
    exact ⟨hfil.1, hfil.2, e, he, hke.symm⟩
  · intro custom gs sel dd nn hsel hnew hraw hempty
    unfold assignSelected
    rw [if_neg hsel, if_neg hnew, if_neg hraw, hempty]
    rfl

theorem C4_commit_empty_filter_amended_witness :
    (3 ≤ ("ABC" : String).length ∧ allDigitsTest "ABC" = false ∧
      ∃ e ∈ splitComma " abc, 12".data, ("ABC" : String) = toUpperS ⟨trimL e⟩) ∧
      assignSelected [("OLD", "Stuff")] [("Uncategorized", [⟨"2024-01-01", -3, "ACME"⟩])]
          [⟨"2024-01-01", -3, "ACME"⟩] "Food" "" "!!" =
        .ok ([("OLD", "Stuff")],
          reassign [("Uncategorized", [⟨"2024-01-01", -3, "ACME"⟩])]
            [⟨"2024-01-01", -3, "ACME"⟩]
            (if ("Food" : String) = "New Category..." then jsTrimS "" else "Food")) :=
  ⟨(C4_commit_empty_filter_amended " abc, 12").1 "ABC" (by decide),
    (C4_commit_empty_filter_amended "!!").2 [("OLD", "Stuff")]
      [("Uncategorized", [⟨"2024-01-01", -3, "ACME"⟩])] [⟨"2024-01-01", -3, "ACME"⟩]
      "Food" "" (by decide) (by decide) (by decide) (by decide)⟩

/-! ## Claim C2 -/

theorem charOfNatUpper_toNat (n : Nat) (h1 : 97 ≤ n) (h2 : n ≤ 122) :
    (Char.ofNat (n - 32)).toNat = n - 32 := by
  interval_cases n <;> decide

theorem jsToUpperChar_not_meta (c : Char)
    (h : c.toNat ∉ [92, 94, 36, 46, 42, 43, 63, 40, 41, 91, 93, 123, 125, 124]) :
    (jsToUpperChar c).toNat ∉ [92, 94, 36, 46, 42, 43, 63, 40, 41, 91, 93, 123, 125, 124] := by
  unfold jsToUpperChar
  by_cases hc : 97 ≤ c.toNat ∧ c.toNat ≤ 122
  · rw [if_pos hc, charOfNatUpper_toNat c.toNat hc.1 hc.2]
    obtain ⟨hlo, hhi⟩ := hc
    simp only [List.mem_cons, List.not_mem_nil, or_false]
    omega
  · rw [if_neg hc]
    exact h

theorem regexLiteralSafe_toUpper (k : String) (h : regexLiteralSafe k = true) :
    regexLiteralSafe (toUpperS k) = true := by
  unfold regexLiteralSafe at h ⊢
  rw [List.all_eq_true] at h ⊢
  intro x hx
  have hx' : x ∈ List.map jsToUpperChar k.data := hx
  obtain ⟨c, hc, hcx⟩ := List.mem_map.mp hx'
  have hsafe := h c hc
  simp only [Bool.not_eq_true', decide_eq_false_iff_not] at hsafe ⊢
  rw [← hcx]
  exact jsToUpperChar_not_meta c hsafe

theorem findCategory_no_match (store : Store) (desc : String) :
    ∀ ks, (∀ k ∈ ks, regexLiteralSafe (toUpperS k) = true) →
      (∀ k ∈ ks, wbMatch (toUpperS k) desc = false) →
      findCategory store desc ks = .ok "Uncategorized" := by
  intro ks
  induction ks with
  | nil => intro _ _; rfl
  | cons k rest ih =>
    intro hsafe hmatch
    unfold findCategory
    rw [if_pos (hsafe k (List.mem_cons_self k rest)),
      if_neg (by simp [hmatch k (List.mem_cons_self k rest)])]
    exact ih (fun x hx => hsafe x (List.mem_cons_of_mem _ hx))
      (fun x hx => hmatch x (List.mem_cons_of_mem _ hx))

theorem findCategory_first_match (store : Store) (desc : String) :
    ∀ ks, (∀ k ∈ ks, regexLiteralSafe (toUpperS k) = true) → List.Sorted lenGe ks →
      ∀ k0, k0 ∈ ks → wbMatch (toUpperS k0) desc = true →
      ∃ k, k ∈ ks ∧ wbMatch (toUpperS k) desc = true ∧
        (∀ k2 ∈ ks, wbMatch (toUpperS k2) desc = true → k2.length ≤ k.length) ∧
        findCategory store desc ks = .ok ((lookupStore k store).getD "undefined") := by
  intro ks
  induction ks with
  | nil => intro _ _ k0 h0 _; exact absurd h0 (List.not_mem_nil k0)
  | cons k rest ih =>
    intro hsafe hsorted k0 hk0 hm0
    by_cases hk : wbMatch (toUpperS k) desc = true
    · refine ⟨k, List.mem_cons_self k rest, hk, ?_, ?_⟩
      · intro k2 hk2 hm2
        rcases List.mem_cons.mp hk2 with rfl | hk2r
        · exact le_refl _
        · exact (List.sorted_cons.mp hsorted).1 k2 hk2r
      · unfold findCategory
        rw [if_pos (hsafe k (List.mem_cons_self k rest)), if_pos hk]
    · have hk0r : k0 ∈ rest := by
        rcases List.mem_cons.mp hk0 with rfl | h
        · exact absurd hm0 hk
        · exact h
      obtain ⟨k1, hk1mem, hk1m, hk1max, hk1eq⟩ := ih
        (fun x hx => hsafe x (List.mem_cons_of_mem _ hx)) (List.sorted_cons.mp hsorted).2
        k0 hk0r hm0
      refine ⟨k1, List.mem_cons_of_mem _ hk1mem, hk1m, ?_, ?_⟩
      · intro k2 hk2 hm2
        rcases List.mem_cons.mp hk2 with rfl | hk2r
        · exact absurd hm2 hk
        · exact hk1max k2 hk2r hm2
      · unfold findCategory
        rw [if_pos (hsafe k (List.mem_cons_self k rest)), if_neg hk]
        exact hk1eq

/-- C2 counterexample: with the metacharacter-free store
`{ABCDEF ↦ X, ABCDE ↦ Y, AB ↦ Z}` and description `"ABCDEF ABCDE AB"`,
the keywords `"ABCDE"` and `"AB"` both match and have different lengths,
yet the assigned category is `"X"` (from the still-longer matching
keyword `"ABCDEF"`), not the category of the longer of the two.  The
claim's conclusion, read for every matching pair, is therefore false. -/
theorem C2_counterexample :
    wbTest "ABCDE" (strictClean "ABCDEF ABCDE AB") = true ∧
      wbTest "AB" (strictClean "ABCDEF ABCDE AB") = true ∧
      ("ABCDE", "Y") ∈ ([("ABCDEF", "X"), ("ABCDE", "Y"), ("AB", "Z")] : Store) ∧
      ("AB", "Z") ∈ ([("ABCDEF", "X"), ("ABCDE", "Y"), ("AB", "Z")] : Store) ∧
      ("AB" : String).length < ("ABCDE" : String).length ∧
      categorizeRow [("ABCDEF", "X"), ("ABCDE", "Y"), ("AB", "Z")]
          ⟨"2024-01-01", -1, "ABCDEF ABCDE AB"⟩ =
        .ok ("X", ⟨"2024-01-01", -1, "ABCDEF ABCDE AB"⟩) ∧
      ("X" : String) ≠ "Y" ∧ ("X" : String) ≠ "Z" :=
  ⟨by decide, by decide, by decide, by decide, by decide, by decide, by decide, by decide⟩

/-- C2 (amended): for every CategoryStore whose keywords are free of
regex metacharacters (so each compiled pattern is the literal whole-word
test) and every transaction with Amount ≤ 0: if no keyword matches the
cleaned description, the Categorizer assigns `"Uncategorized"`; and if
some keyword matches, it assigns the category of a matching keyword of
maximal length — in particular, when exactly two keywords of different
lengths match, the longer one's category. -/
theorem C2_longest_keyword_amended (store : Store) (t : Txn)
    (hsafe : ∀ p ∈ store, regexLiteralSafe p.1 = true) (hamt : t.Amount ≤ 0) :
    ((∀ p ∈ store, wbTest p.1 (strictClean t.Description) = false) →
      categorizeRow store t =
        .ok ("Uncategorized", ⟨t.Date, t.Amount, strictClean t.Description⟩)) ∧
    (∀ p0 ∈ store, wbTest p0.1 (strictClean t.Description) = true →
      ∃ q ∈ store, wbTest q.1 (strictClean t.Description) = true ∧
        (∀ p ∈ store, wbTest p.1 (strictClean t.Description) = true →
          p.1.length ≤ q.1.length) ∧
        categorizeRow store t = .ok (q.2, ⟨t.Date, t.Amount, strictClean t.Description⟩)) := by
  have hperm : List.Perm (sortKeys store) (store.map Prod.fst) :=
    List.perm_insertionSort _ _
  have hkeys_safe : ∀ k ∈ sortKeys store, regexLiteralSafe (toUpperS k) = true := by
    intro k hk
    obtain ⟨p, hp, hpk⟩ := List.mem_map.mp ((hperm.mem_iff).mp hk)
    rw [← hpk]
    exact regexLiteralSafe_toUpper _ (hsafe p hp)
  have hnotpos : ¬ (0 < t.Amount) := not_lt.mpr hamt
  constructor
  · intro hnone
    have hml : ∀ k ∈ sortKeys store, wbMatch (toUpperS k) (strictClean t.Description) = false := by
      intro k hk
      obtain ⟨p, hp, hpk⟩ := List.mem_map.mp ((hperm.mem_iff).mp hk)
      rw [← hpk]
      exact hnone p hp
    have heq := findCategory_no_match store (strictClean t.Description) (sortKeys store)
      hkeys_safe hml
    unfold categorizeRow assignCategory
    rw [if_neg hnotpos, heq]
    rfl
  · intro p0 hp0 hm0
    have hk0 : p0.1 ∈ sortKeys store :=
      (hperm.mem_iff).mpr (List.mem_map.mpr ⟨p0, hp0, rfl⟩)
    obtain ⟨k1, hk1mem, hk1m, hk1max, hk1eq⟩ := findCategory_first_match store
      (strictClean t.Description) (sortKeys store) hkeys_safe
      (List.sorted_insertionSort _ _) p0.1 hk0 hm0
    have hk1keys : k1 ∈ store.map Prod.fst := (hperm.mem_iff).mp hk1mem
    have hlook : ∃ q, store.find? (fun p => decide (p.1 = k1)) = some q := by
      obtain ⟨p, hp, hpk⟩ := List.mem_map.mp hk1keys
      exact Option.isSome_iff_exists.mp (List.find?_isSome.mpr ⟨p, hp, by simp [hpk]⟩)
    obtain ⟨q, hq⟩ := hlook
    have hqmem : q ∈ store := List.mem_of_find?_eq_some hq
    have hqk : q.1 = k1 := by simpa using List.find?_some hq
    refine ⟨q, hqmem, ?_, ?_, ?_⟩
    · show wbMatch (toUpperS q.1) (strictClean t.Description) = true
      rw [hqk]
      exact hk1m
    · intro p hp hm
      have hpk : p.1 ∈ sortKeys store :=
        (hperm.mem_iff).mpr (List.mem_map.mpr ⟨p, hp, rfl⟩)
      rw [hqk]
      exact hk1max p.1 hpk hm
    · unfold categorizeRow assignCategory
      rw [if_neg hnotpos, hk1eq]
      unfold lookupStore
      rw [hq]
      rfl

theorem C2_longest_keyword_amended_witness :
    ∃ q ∈ ([("COFFEE", "Food")] : Store),
      wbTest q.1 (strictClean "ACME COFFEE") = true ∧
      (∀ p ∈ ([("COFFEE", "Food")] : Store),
        wbTest p.1 (strictClean "ACME COFFEE") = true → p.1.length ≤ q.1.length) ∧
      categorizeRow [("COFFEE", "Food")] ⟨"2024-01-01", -3, "ACME COFFEE"⟩ =
        .ok (q.2, ⟨"2024-01-01", -3, strictClean "ACME COFFEE"⟩) :=
  (C2_longest_keyword_amended [("COFFEE", "Food")] ⟨"2024-01-01", -3, "ACME COFFEE"⟩
    (by decide) (by decide)).2 ("COFFEE", "Food") (by decide) (by decide)

/-! ## Claim C3 -/

theorem countP_congr' {α : Type} (p q : α → Bool) :
    ∀ l : List α, (∀ a ∈ l, p a = q a) → List.countP p l = List.countP q l := by
  intro l
  induction l with
  | nil => intro _; rfl
  | cons a t ih =>
    intro h
    rw [List.countP_cons, List.countP_cons, h a (List.mem_cons_self a t),
      ih (fun x hx => h x (List.mem_cons_of_mem _ hx))]

theorem map_eq_map_of_eq {α β : Type} (f g : α → β) :
    ∀ l : List α, (∀ a ∈ l, f a = g a) → l.map f = l.map g := by
  intro l
  induction l with
  | nil => intro _; rfl
  | cons a t ih =>
    intro h
    simp only [List.map_cons]
    rw [h a (List.mem_cons_self a t), ih (fun x hx => h x (List.mem_cons_of_mem _ hx))]

theorem pairGroupCount_push1 (d desc target : String) (t : Txn)
    (ht : hasPair d desc t = false) (gs : Groups) :
    pairGroupCount d desc (push1 gs target t) = pairGroupCount d desc gs := by
  unfold push1
  split
  · unfold pairGroupCount
    rw [List.countP_map]
    apply countP_congr'
    intro g _
    simp only [Function.comp]
    split
    · unfold groupHasPair
      simp [List.any_append, ht]
    · rfl
  · unfold pairGroupCount
    rw [List.countP_append]
    simp [groupHasPair, List.countP_cons, ht]

theorem pairGroupCount_pushAll (d desc target : String) :
    ∀ sel : List Txn, (∀ t ∈ sel, hasPair d desc t = false) →
      ∀ gs : Groups, pairGroupCount d desc (pushAll gs target sel) = pairGroupCount d desc gs := by
  intro sel
  induction sel with
  | nil => intro _ gs; rfl
  | cons t ts ih =>
    intro h gs
    unfold pushAll
    rw [List.foldl_cons]
    have hrec := ih (fun x hx => h x (List.mem_cons_of_mem _ hx)) (push1 gs target t)
    unfold pushAll at hrec
    rw [hrec, pairGroupCount_push1 d desc target t (h t (List.mem_cons_self t ts)) gs]

theorem any_filter_eq (q keep : Txn → Bool) :
    ∀ l : List Txn, (∀ x, q x = true → keep x = true) →
      (l.filter keep).any q = l.any q := by
  intro l h
  induction l with
  | nil => rfl
  | cons a t ih =>
    rw [List.filter_cons]
    cases hq : q a
    · cases hk : keep a
      · rw [if_neg (by simp [hk])]
        rw [ih]
        simp [List.any_cons, hq]
      · rw [if_pos (by simp [hk])]
        simp [List.any_cons, hq, ih]
    · rw [if_pos (by simp [h a hq])]
      simp [List.any_cons, hq]

theorem txnMatchesSel_eq_false_of_no_pair (d desc : String) (sel : List Txn)
    (h : ∀ s ∈ sel, hasPair d desc s = false) (x : Txn) (hx : hasPair d desc x = true) :
    txnMatchesSel sel x = false := by
  unfold txnMatchesSel
  unfold hasPair at hx
  simp only [Bool.and_eq_true, decide_eq_true_eq] at hx
  rw [List.any_eq_false]
  intro s hs
  have hsf := h s hs
  by_cases h1 : s.Description = x.Description
  · by_cases h2 : s.Date = x.Date
    · exfalso
      apply absurd hsf
      simp [hasPair, h2, hx.1, h1, hx.2]
    · simp [h2]
  · simp [h1]

theorem pairGroupCount_removeOthers_of_not (d desc target : String) (sel : List Txn)
    (h : ∀ s ∈ sel, hasPair d desc s = false) (gs : Groups) :
    pairGroupCount d desc (removeFromOthers gs target sel) = pairGroupCount d desc gs := by
  unfold removeFromOthers pairGroupCount
  rw [List.countP_map]
  apply countP_congr'
  intro g _
  simp only [Function.comp]
  split
  · rfl
  · show groupHasPair d desc (g.1, g.2.filter _) = groupHasPair d desc g
    unfold groupHasPair
    apply any_filter_eq
    intro x hx
    have := txnMatchesSel_eq_false_of_no_pair d desc sel h x hx
    simp [this]

theorem pairGroupCount_removeOthers_of_pair (d desc target : String) (sel : List Txn)
    (s0 : Txn) (hs0mem : s0 ∈ sel) (hs0 : hasPair d desc s0 = true) (gs : Groups) :
    pairGroupCount d desc (removeFromOthers gs target sel) =
      List.countP (fun g => decide (g.1 = target) && groupHasPair d desc g) gs := by
  unfold removeFromOthers pairGroupCount
  rw [List.countP_map]
  apply countP_congr'
  intro g _
  simp only [Function.comp]
  split
  next hgt => simp [hgt]
  next hgt =>
    show groupHasPair d desc (g.1, g.2.filter _) = _
    have hL : (g.2.filter (fun x => !txnMatchesSel sel x)).any (hasPair d desc) = false := by
      rw [List.any_eq_false]
      intro x hxmem
      have hkeep := List.of_mem_filter hxmem
      simp only [Bool.not_eq_true'] at hkeep
      intro hxp
      unfold hasPair at hxp
      simp only [Bool.and_eq_true, decide_eq_true_eq] at hxp
      unfold hasPair at hs0
      simp only [Bool.and_eq_true, decide_eq_true_eq] at hs0
      have : txnMatchesSel sel x = true := by
        unfold txnMatchesSel
        rw [List.any_eq_true]
        exact ⟨s0, hs0mem, by simp [hs0.1, hs0.2, hxp.1, hxp.2]⟩
      rw [this] at hkeep
      exact absurd hkeep (by simp)
    simp [groupHasPair, hL, hgt]

theorem push1_key_present (gs : Groups) (target : String) (t : Txn) :
    (push1 gs target t).any (fun g => decide (g.1 = target)) = true := by
  unfold push1
  split
  next hpres =>
    rcases List.any_eq_true.mp hpres with ⟨g, hg, hgt⟩
    apply List.any_eq_true.mpr
    refine ⟨if g.1 = target then (g.1, g.2 ++ [t]) else g, List.mem_map.mpr ⟨g, hg, rfl⟩, ?_⟩
    simp only [decide_eq_true_eq] at hgt
    rw [if_pos hgt]
    simpa using hgt
  next =>
    apply List.any_eq_true.mpr
    exact ⟨(target, [t]), by simp, by simp⟩

theorem push1_map_fst (gs : Groups) (target : String) (t : Txn) :
    (push1 gs target t).map Prod.fst =
      if gs.any (fun g => decide (g.1 = target)) = true then gs.map Prod.fst
      else gs.map Prod.fst ++ [target] := by
  unfold push1
  split
  next h =>
    rw [List.map_map]
    apply map_eq_map_of_eq
    intro g _
    simp only [Function.comp]
    split <;> rfl
  next h =>
    rw [List.map_append]
    rfl

theorem push1_nodup (gs : Groups) (target : String) (t : Txn)
    (h : (gs.map Prod.fst).Nodup) : ((push1 gs target t).map Prod.fst).Nodup := by
  rw [push1_map_fst]
  split
  · exact h
  next hq =>
    have hnot : target ∉ gs.map Prod.fst := by
      intro hmem
      obtain ⟨g, hg, hgt⟩ := List.mem_map.mp hmem
      exact hq (List.any_eq_true.mpr ⟨g, hg, by simp [hgt]⟩)
    simp [List.nodup_append, h, hnot]

theorem pushAll_nodup (target : String) :
    ∀ (sel : List Txn) (gs : Groups), (gs.map Prod.fst).Nodup →
      ((pushAll gs target sel).map Prod.fst).Nodup := by
  intro sel
  induction sel with
  | nil => intro gs h; exact h
  | cons t ts ih =>
    intro gs h
    unfold pushAll
    rw [List.foldl_cons]
    exact ih (push1 gs target t) (push1_nodup gs target t h)

theorem pushAll_key_present_of_present (target : String) :
    ∀ (sel : List Txn) (gs : Groups), gs.any (fun g => decide (g.1 = target)) = true →
      (pushAll gs target sel).any (fun g => decide (g.1 = target)) = true := by
  intro sel
  induction sel with
  | nil => intro gs h; exact h
  | cons t ts ih =>
    intro gs _
    unfold pushAll
    rw [List.foldl_cons]
    exact ih (push1 gs target t) (push1_key_present gs target t)

theorem pushAll_key_present (target : String) (sel : List Txn) (hsel : sel ≠ [])
    (gs : Groups) :
    (pushAll gs target sel).any (fun g => decide (g.1 = target)) = true := by
  cases sel with
  | nil => exact absurd rfl hsel
  | cons t ts =>
    unfold pushAll
    rw [List.foldl_cons]
    exact pushAll_key_present_of_present target ts (push1 gs target t)
      (push1_key_present gs target t)

theorem push1_target_mem (gs : Groups) (target : String) (t : Txn) :
    ∀ g ∈ push1 gs target t, g.1 = target → t ∈ g.2 := by
  intro g hg hgt
  unfold push1 at hg
  split at hg
  next hpres =>
    obtain ⟨g0, hg0, hg0e⟩ := List.mem_map.mp hg
    by_cases h0 : g0.1 = target
    · rw [if_pos h0] at hg0e
      rw [← hg0e]
      simp
    · rw [if_neg h0] at hg0e
      rw [← hg0e] at hgt
      exact absurd hgt h0
  next hpres =>
    rcases List.mem_append.mp hg with hin | hin
    · exact absurd (List.any_eq_true.mpr ⟨g, hin, by simp [hgt]⟩) hpres
    · simp only [List.mem_singleton] at hin
      rw [hin]
      simp

theorem push1_preserves_target_mem (gs : Groups) (target : String) (t s0 : Txn)
    (hpres : gs.any (fun g => decide (g.1 = target)) = true)
    (h : ∀ g ∈ gs, g.1 = target → s0 ∈ g.2) :
    ∀ g ∈ push1 gs target t, g.1 = target → s0 ∈ g.2 := by
  intro g hg hgt
  unfold push1 at hg
  rw [if_pos hpres] at hg
  obtain ⟨g0, hg0, hg0e⟩ := List.mem_map.mp hg
  by_cases h0 : g0.1 = target
  · rw [if_pos h0] at hg0e
    rw [← hg0e]
    exact List.mem_append_left _ (h g0 hg0 h0)
  · rw [if_neg h0] at hg0e
    rw [← hg0e] at hgt ⊢
    exact h g0 hg0 hgt

theorem pushAll_target_mem_invariant (target : String) (s0 : Txn) :
    ∀ (ts : List Txn) (gs : Groups),
      gs.any (fun g => decide (g.1 = target)) = true →
      (∀ g ∈ gs, g.1 = target → s0 ∈ g.2) →
      ∀ g ∈ pushAll gs target ts, g.1 = target → s0 ∈ g.2 := by
  intro ts
  induction ts with
  | nil => intro gs _ h; exact h
  | cons t ts ih =>
    intro gs hpres h
    unfold pushAll
    rw [List.foldl_cons]
    exact ih (push1 gs target t) (push1_key_present gs target t)
      (push1_preserves_target_mem gs target t s0 hpres h)

theorem pushAll_mem_target (target : String) (sel : List Txn) (s0 : Txn) (hs0 : s0 ∈ sel)
    (gs : Groups) : ∀ g ∈ pushAll gs target sel, g.1 = target → s0 ∈ g.2 := by
  obtain ⟨pre, post, hdecomp⟩ := List.append_of_mem hs0
  subst hdecomp
  intro g hg hgt
  unfold pushAll at hg
  rw [List.foldl_append, List.foldl_cons] at hg
  exact pushAll_target_mem_invariant target s0 post
    (push1 (List.foldl (fun g t => push1 g target t) gs pre) target s0)
    (push1_key_present _ target s0)
    (push1_target_mem _ target s0) g hg hgt

theorem countP_target_unique (d desc target : String) :
    ∀ gs : Groups, (gs.map Prod.fst).Nodup →
      gs.any (fun g => decide (g.1 = target)) = true →
      (∀ g ∈ gs, g.1 = target → groupHasPair d desc g = true) →
      List.countP (fun g => decide (g.1 = target) && groupHasPair d desc g) gs = 1 := by
  intro gs
  induction gs with
  | nil => intro _ hpres _; simp at hpres
  | cons g rest ih =>
    intro hnodup hpres hmem
    rw [List.countP_cons]
    by_cases hgt : g.1 = target
    · have hg := hmem g (List.mem_cons_self g rest) hgt
      have hz : List.countP (fun g2 => decide (g2.1 = target) && groupHasPair d desc g2)
          rest = 0 := by
        rw [List.countP_eq_zero]
        intro g2 hg2
        have hne : g2.1 ≠ target := by
          intro he
          have hin : g.1 ∈ rest.map Prod.fst :=
            List.mem_map.mpr ⟨g2, hg2, by rw [he, hgt]⟩
          exact (List.nodup_cons.mp (by simpa using hnodup)).1 hin
        simp [hne]
      rw [hz]
      simp [hgt, hg]
    · rw [if_neg (by simp [hgt])]
      have hpres' : rest.any (fun g2 => decide (g2.1 = target)) = true := by
        rcases List.any_eq_true.mp hpres with ⟨g2, hg2, hg2t⟩
        rcases List.mem_cons.mp hg2 with rfl | hg2r
        · simp only [decide_eq_true_eq] at hg2t
          exact absurd hg2t hgt
        · exact List.any_eq_true.mpr ⟨g2, hg2r, hg2t⟩
      have hnodup' : (rest.map Prod.fst).Nodup :=
        (List.nodup_cons.mp (by simpa using hnodup)).2
      rw [ih hnodup' hpres'
        (fun g2 hg2 hgt2 => hmem g2 (List.mem_cons_of_mem _ hg2) hgt2)]

/-- C3 counterexample: two transactions share `(Date, Description)` but
differ in `Amount`.  Reassigning the first to a new category removes the
second from its group (the removal phase matches on `(Date, Description)`
only) without adding it anywhere: a transaction that was in exactly one
group ends up in none. -/
theorem C3_counterexample :
    txnGroupCount ⟨"2024-01-01", -2, "X"⟩
        [("A", [⟨"2024-01-01", -1, "X"⟩]), ("B", [⟨"2024-01-01", -2, "X"⟩])] = 1 ∧
      reassign [("A", [⟨"2024-01-01", -1, "X"⟩]), ("B", [⟨"2024-01-01", -2, "X"⟩])]
          [⟨"2024-01-01", -1, "X"⟩] "C" =
        [("A", []), ("B", []), ("C", [⟨"2024-01-01", -1, "X"⟩])] ∧
      txnGroupCount ⟨"2024-01-01", -2, "X"⟩
        [("A", []), ("B", []), ("C", [⟨"2024-01-01", -1, "X"⟩])] = 0 ∧
      ([⟨"2024-01-01", -1, "X"⟩] : List Txn) ≠ [] :=
  ⟨by decide, by decide, by decide, by decide⟩

/-- C3 (amended): under the engine's own transaction identity — the
`(Date, Description)` pair (spec section 9) — the invariant is preserved:
for every groups object with unique category keys, every non-empty
selection and target category, a pair that was present in exactly one
group is present in exactly one group after the reassignment. -/
theorem C3_pair_preservation_amended (gs : Groups) (sel : List Txn)
    (target d desc : String) (hnodup : (gs.map Prod.fst).Nodup) (hsel : sel ≠ [])
    (hone : pairGroupCount d desc gs = 1) :
    pairGroupCount d desc (reassign gs sel target) = 1 := by
  unfold reassign
  by_cases hp : ∃ s ∈ sel, hasPair d desc s = true
  · obtain ⟨s0, hs0mem, hs0⟩ := hp
    rw [pairGroupCount_removeOthers_of_pair d desc target sel s0 hs0mem hs0]
    exact countP_target_unique d desc target (pushAll gs target sel)
      (pushAll_nodup target sel gs hnodup)
      (pushAll_key_present target sel hsel gs)
      (fun g hg hgt =>
        List.any_eq_true.mpr ⟨s0, pushAll_mem_target target sel s0 hs0mem gs g hg hgt, hs0⟩)
  · have hp' : ∀ s ∈ sel, hasPair d desc s = false := by
      intro s hs
      cases hps : hasPair d desc s
      · rfl
      · exact absurd ⟨s, hs, hps⟩ hp
    rw [pairGroupCount_removeOthers_of_not d desc target sel hp',
      pairGroupCount_pushAll d desc target sel hp' gs]
    exact hone

theorem C3_pair_preservation_amended_witness :
    (([("Food", [⟨"2024-01-01", -7, "ACME"⟩])] : Groups).map Prod.fst).Nodup ∧
      ([⟨"2024-01-01", -7, "ACME"⟩] : List Txn) ≠ [] ∧
      pairGroupCount "2024-01-01" "ACME" [("Food", [⟨"2024-01-01", -7, "ACME"⟩])] = 1 ∧
      pairGroupCount "2024-01-01" "ACME"
        (reassign [("Food", [⟨"2024-01-01", -7, "ACME"⟩])] [⟨"2024-01-01", -7, "ACME"⟩]
          "Travel") = 1 :=
  ⟨by decide, by decide, by decide,
    C3_pair_preservation_amended [("Food", [⟨"2024-01-01", -7, "ACME"⟩])]
      [⟨"2024-01-01", -7, "ACME"⟩] "Travel" "2024-01-01" "ACME"
      (by decide) (by decide) (by decide)⟩
